import Mathlib

/-!
Verification of the hierarchical text-chunking engine (text_splitter.ts).

Strings are modelled as lists of characters (`Str`).  Machine numbers
(`chunkSize`, `chunkOverlap`, the running total of the merge engine and the
token indices of the token-window splitter) are modelled as `Int`, matching
JavaScript integer arithmetic on the values involved.

Partiality of the source is made explicit:
* the out-of-bounds read `currentDoc[0]` on an empty array inside the
  eviction loop of `mergeSplits` (a `TypeError` in JavaScript) is modelled by
  `Option`, `none` meaning the crash;
* the unbounded recursion of `RecursiveCharacterTextSplitter.splitText` and
  the unbounded loop of `TokenTextSplitter.splitText` are modelled with an
  explicit fuel argument, `none` meaning the computation did not finish
  within the given number of recursive calls / loop iterations.
-/

/-- Strings, modelled as lists of characters. -/
abbrev Str := List Char

/-- Decides whether `p` is a prefix of `t` (JavaScript leftmost-match test
used by the `String.prototype.split` scanner). -/
def isPre : Str → Str → Bool
  | [], _ => true
  | _ :: _, [] => false
  | a :: p, b :: t => a == b && isPre p t

/-- JavaScript `text.includes(sub)`: `sub` occurs as a contiguous substring
of `text`. -/
def jsIncludes : Str → Str → Bool
  | [], sub => isPre sub []
  | c :: rest, sub => isPre sub (c :: rest) || jsIncludes rest sub

/-- Scanner of JavaScript `text.split(sep)` for a non-empty separator
`c0 :: sep0`: scan left to right, cut at each leftmost occurrence of the
separator; `acc` holds the (reversed) characters of the piece being built.
The bound `fuel` only makes the recursion structural: every recursive call
shortens the text by at least one character, so whenever the text is no
longer than `fuel` (as in `jsSplit` below) the `fuel = 0` case is
unreachable. -/
def splitOnAux (c0 : Char) (sep0 : Str) : Nat → Str → Str → List Str
  | _, [], acc => [acc.reverse]
  | 0, _ :: _, acc => [acc.reverse]
  | fuel + 1, c :: rest, acc =>
    if isPre (c0 :: sep0) (c :: rest) then
      acc.reverse :: splitOnAux c0 sep0 fuel (rest.drop sep0.length) []
    else
      splitOnAux c0 sep0 fuel rest (c :: acc)

/-- JavaScript `text.split(separator)` as used by the splitters: a non-empty
separator splits on every literal occurrence, the empty separator (falsy in
the source's `if (separator)` test) splits into single characters. -/
def jsSplit (text sep : Str) : List Str :=
  match sep with
  | [] => text.map (fun c => [c])
  | c0 :: sep0 => splitOnAux c0 sep0 text.length text []

/-- JavaScript `String.prototype.trim`: strip whitespace from both ends. -/
def trimL (s : Str) : Str :=
  ((s.dropWhile Char.isWhitespace).reverse.dropWhile Char.isWhitespace).reverse

/-- JavaScript `Array.prototype.join(sep)`. -/
def listIntercalate (sep : Str) : List Str → Str
  | [] => []
  | [d] => d
  | d :: e :: ds => d ++ sep ++ listIntercalate sep (e :: ds)

/-- Sum of the lengths of a list of units, as an integer (the quantity that
the merge engine's running variable `total` tracks). -/
def sumLen : List Str → Int
  | [] => 0
  | u :: rest => (u.length : Int) + sumLen rest

/-- The shared splitter configuration (`TextSplitter`'s fields). -/
structure SplitterConfig where
  chunkSize : Int
  chunkOverlap : Int
deriving DecidableEq, Repr

/-- The optional constructor fields (`Partial<TextSplitterParams>`). -/
structure SplitterFields where
  chunkSize : Option Int
  chunkOverlap : Option Int
deriving DecidableEq, Repr

/-- The `TextSplitter` constructor (text_splitter.ts lines 21-27): apply the
defaults 1000 / 200, then throw iff `chunkOverlap >= chunkSize`. -/
def mkSplitterConfig (fields : SplitterFields) : Except String SplitterConfig :=
  let cs := fields.chunkSize.getD 1000
  let co := fields.chunkOverlap.getD 200
  if co ≥ cs then Except.error "Cannot have chunkOverlap >= chunkSize"
  else Except.ok { chunkSize := cs, chunkOverlap := co }

/-- `TextSplitter.joinDocs` (lines 111-114): join with the separator, trim,
and return `none` for the empty string. -/
def joinDocs (docs : List Str) (sep : Str) : Option Str :=
  let text := trimL (listIntercalate sep docs)
  if text = [] then none else some text

/-- The front-eviction loop of `TextSplitter.mergeSplits` (lines 140-146):
pop units from the front of the window while the running total exceeds the
overlap, or the next unit would not fit and the total is positive.  Reading
the front of an empty window (`currentDoc[0]` is `undefined`, so
`undefined.length` throws) is modelled by `none`. -/
def evictLoop (cfg : SplitterConfig) (len : Int) : Int → List Str → Option (Int × List Str)
  | total, [] =>
    if total > cfg.chunkOverlap ∨ (total + len > cfg.chunkSize ∧ total > 0) then none
    else some (total, [])
  | total, u :: rest =>
    if total > cfg.chunkOverlap ∨ (total + len > cfg.chunkSize ∧ total > 0) then
      evictLoop cfg len (total - (u.length : Int)) rest
    else
      some (total, u :: rest)

/-- The main loop of `TextSplitter.mergeSplits` (lines 120-151), processing
the incoming units one by one; the state is `(docs, currentDoc, total)`.
The `console.warn` diagnostic (lines 126-131) has no effect on the state and
is not modelled. -/
def mergeLoop (cfg : SplitterConfig) (sep : Str) :
    List Str → List Str → Int → List Str → Option (List Str × List Str × Int)
  | docs, currentDoc, total, [] => some (docs, currentDoc, total)
  | docs, currentDoc, total, d :: rest =>
    let len : Int := d.length
    if total + len + (if currentDoc.length > 0 then (sep.length : Int) else 0) >
        cfg.chunkSize then
      if currentDoc.length > 0 then
        let docs2 :=
          match joinDocs currentDoc sep with
          | some doc => docs ++ [doc]
          | none => docs
        match evictLoop cfg len total currentDoc with
        | none => none
        | some (total2, current2) =>
          mergeLoop cfg sep docs2 (current2 ++ [d]) (total2 + len) rest
      else
        mergeLoop cfg sep docs (currentDoc ++ [d]) (total + len) rest
    else
      mergeLoop cfg sep docs (currentDoc ++ [d]) (total + len) rest

/-- `TextSplitter.mergeSplits` (lines 116-157): run the main loop from the
empty state, then flush the remaining window. -/
def mergeSplits (cfg : SplitterConfig) (splits : List Str) (sep : Str) : Option (List Str) :=
  match mergeLoop cfg sep [] [] 0 splits with
  | none => none
  | some (docs, currentDoc, _) =>
    match joinDocs currentDoc sep with
    | some doc => some (docs ++ [doc])
    | none => some docs

/-- `CharacterTextSplitter.splitText` (lines 175-184): split once on the
configured separator and merge. -/
def characterSplitText (cfg : SplitterConfig) (sep : Str) (text : Str) : Option (List Str) :=
  mergeSplits cfg (jsSplit text sep) sep

/-- The separator-selection loop of `RecursiveCharacterTextSplitter.splitText`
(lines 208-217): first entry that is the empty string or occurs in the text. -/
def findSeparator (text : Str) : List Str → Option Str
  | [] => none
  | s :: rest => if s.isEmpty || jsIncludes text s then some s else findSeparator text rest

/-- Separator selection including the initialisation
`separator = separators[separators.length - 1]` (line 207): when no entry
matches, the last entry is kept. -/
def selectSeparator (seps : List Str) (text : Str) : Str :=
  match findSeparator text seps with
  | some s => s
  | none => seps.getLastD []

/-- The unit-processing loop of `RecursiveCharacterTextSplitter.splitText`
(lines 228-241): accumulate units shorter than `chunkSize`; on an oversized
unit flush the accumulator through the merge engine and recurse (the
recursive call is abstracted as `recurse`). -/
def recSplitLoop (cfg : SplitterConfig) (sep : Str) (recurse : Str → Option (List Str)) :
    List Str → List Str → List Str → Option (List Str × List Str)
  | finalChunks, goodSplits, [] => some (finalChunks, goodSplits)
  | finalChunks, goodSplits, s :: rest =>
    if (s.length : Int) < cfg.chunkSize then
      recSplitLoop cfg sep recurse finalChunks (goodSplits ++ [s]) rest
    else
      match (if goodSplits.length > 0 then mergeSplits cfg goodSplits sep else some []) with
      | none => none
      | some mergedText =>
        match recurse s with
        | none => none
        | some otherInfo =>
          recSplitLoop cfg sep recurse (finalChunks ++ mergedText ++ otherInfo) [] rest

/-- `RecursiveCharacterTextSplitter.splitText` (lines 203-247), with an
explicit bound `fuel` on the recursion depth; `none` means the computation
did not finish within `fuel` nested calls. -/
def recursiveSplitText (cfg : SplitterConfig) (seps : List Str) : Nat → Str → Option (List Str)
  | 0, _ => none
  | fuel + 1, text =>
    let separator := selectSeparator seps text
    let splits := jsSplit text separator
    match recSplitLoop cfg separator (recursiveSplitText cfg seps fuel) [] [] splits with
    | none => none
    | some (finalChunks, goodSplits) =>
      if goodSplits.length > 0 then
        match mergeSplits cfg goodSplits separator with
        | none => none
        | some mergedText => some (finalChunks ++ mergedText)
      else
        some finalChunks

/-- JavaScript `Array.prototype.slice(a, b)` on a list of token ids. -/
def jsSliceInt (ids : List Int) (a b : Int) : List Int :=
  let n : Int := ids.length
  let lo := if a < 0 then max (n + a) 0 else min a n
  let hi := if b < 0 then max (n + b) 0 else min b n
  (ids.take hi.toNat).drop lo.toNat

/-- The window loop of `TokenTextSplitter.splitText` (lines 292-302): while
`start < N`, decode the token window `[start, min(start + chunkSize, N))`,
append it, and advance by `chunkSize - chunkOverlap`.  The loop is given an
explicit iteration bound `fuel`; `none` means it did not finish. -/
def tokenLoop (cfg : SplitterConfig) (decode : List Int → Str) (ids : List Int) :
    Nat → Int → List Str → Option (List Str)
  | 0, _, _ => none
  | fuel + 1, start, acc =>
    if start < (ids.length : Int) then
      let cur := min (start + cfg.chunkSize) (ids.length : Int)
      tokenLoop cfg decode ids fuel (start + (cfg.chunkSize - cfg.chunkOverlap))
        (acc ++ [decode (jsSliceInt ids start cur)])
    else
      some acc

/-- `TokenTextSplitter.splitText` (lines 279-305) over an abstract tokenizer
collaborator given by `encode` and `decode`. -/
def tokenSplitText (cfg : SplitterConfig) (encode : Str → List Int) (decode : List Int → Str)
    (fuel : Nat) (text : Str) : Option (List Str) :=
  tokenLoop cfg decode (encode text) fuel 0 []

/-- Number of windows the token-window loop performs on `n` tokens:
the least `k` with `k * (chunkSize - chunkOverlap) ≥ n`, written with
natural-number ceiling division. -/
def numWindows (cfg : SplitterConfig) (n : Nat) : Nat :=
  (n + (cfg.chunkSize - cfg.chunkOverlap).toNat - 1) / (cfg.chunkSize - cfg.chunkOverlap).toNat

/-- The predicate of the separator-selection loop, propositionally: the
entry is the empty string or occurs in the text. -/
def SepMatch (text s : Str) : Prop :=
  s = [] ∨ jsIncludes text s = true

instance (text s : Str) : Decidable (SepMatch text s) := by
  unfold SepMatch; infer_instance

/-- A chunk produced by one merge pass: the trimmed separator-join of a list
of units, each shorter than `chunkSize`, whose summed length (separators not
counted) is at most `chunkSize`; nonempty after trimming. -/
def MChunk (cfg : SplitterConfig) (sep : Str) (c : Str) : Prop :=
  ∃ ws, c = trimL (listIntercalate sep ws) ∧ sumLen ws ≤ cfg.chunkSize ∧
    (∀ u ∈ ws, (u.length : Int) < cfg.chunkSize) ∧ c ≠ []

/-- A chunk produced by the recursive splitter: an `MChunk` for one of the
configured separators. -/
def GoodChunk (cfg : SplitterConfig) (seps : List Str) (c : Str) : Prop :=
  ∃ sep, sep ∈ seps ∧ MChunk cfg sep c

/-! ### Basic facts about the string primitives -/

theorem isPre_iff (p : Str) : ∀ t : Str, isPre p t = true ↔ ∃ r, t = p ++ r := by
  induction p with
  | nil =>
    intro t
    simp [isPre]
  | cons a p ih =>
    intro t
    cases t with
    | nil => simp [isPre]
    | cons b t =>
      simp only [isPre, Bool.and_eq_true, beq_iff_eq, ih]
      constructor
      · rintro ⟨rfl, r, rfl⟩
        exact ⟨r, rfl⟩
      · rintro ⟨r, h⟩
        simp only [List.cons_append, List.cons.injEq] at h
        exact ⟨h.1.symm, r, h.2⟩

theorem jsIncludes_iff (s : Str) : ∀ t : Str, jsIncludes t s = true ↔ ∃ u v, t = u ++ s ++ v := by
  intro t
  induction t with
  | nil =>
    simp only [jsIncludes, isPre_iff]
    constructor
    · rintro ⟨r, h⟩
      exact ⟨[], r, h⟩
    · rintro ⟨u, v, h⟩
      have h2 : u ++ s ++ v = [] := h.symm
      simp only [List.append_eq_nil] at h2
      exact ⟨[], by simp [h2.1.2]⟩
  | cons c t ih =>
    simp only [jsIncludes, Bool.or_eq_true, isPre_iff, ih]
    constructor
    · rintro (⟨r, h⟩ | ⟨u, v, h⟩)
      · exact ⟨[], r, by simp [h]⟩
      · exact ⟨c :: u, v, by simp [h]⟩
    · rintro ⟨u, v, h⟩
      cases u with
      | nil => exact Or.inl ⟨v, by simpa using h⟩
      | cons a u =>
        simp only [List.cons_append, List.cons.injEq] at h
        exact Or.inr ⟨u, v, h.2⟩

/-- An occurrence inside a contiguous piece of a text is an occurrence inside
the text. -/
theorem jsIncludes_of_within {t m s : Str} (h : ∃ u v, t = u ++ m ++ v)
    (hm : jsIncludes m s = true) : jsIncludes t s = true := by
  rcases h with ⟨u, v, rfl⟩
  rcases (jsIncludes_iff s m).mp hm with ⟨x, y, rfl⟩
  exact (jsIncludes_iff s _).mpr ⟨u ++ x, y ++ v, by simp⟩

theorem sumLen_append (a b : List Str) : sumLen (a ++ b) = sumLen a + sumLen b := by
  induction a with
  | nil => simp [sumLen]
  | cons u a ih => simp [sumLen, ih]; ring

theorem sumLen_nonneg (a : List Str) : 0 ≤ sumLen a := by
  induction a with
  | nil => simp [sumLen]
  | cons u a ih => simp only [sumLen]; positivity

theorem trimL_length_le (s : Str) : (trimL s).length ≤ s.length := by
  unfold trimL
  calc ((s.dropWhile Char.isWhitespace).reverse.dropWhile Char.isWhitespace).reverse.length
      = ((s.dropWhile Char.isWhitespace).reverse.dropWhile Char.isWhitespace).length := by
        simp
    _ ≤ (s.dropWhile Char.isWhitespace).reverse.length :=
        (List.dropWhile_sublist _).length_le
    _ = (s.dropWhile Char.isWhitespace).length := by simp
    _ ≤ s.length := (List.dropWhile_sublist _).length_le

theorem listIntercalate_length (sep : Str) :
    ∀ ws : List Str, (listIntercalate sep ws).length =
      (ws.map List.length).sum + (ws.length - 1) * sep.length := by
  intro ws
  induction ws with
  | nil => simp [listIntercalate]
  | cons d ws ih =>
    cases ws with
    | nil => simp [listIntercalate]
    | cons e ws =>
      simp only [listIntercalate, List.length_append, ih, List.map_cons, List.sum_cons,
        List.length_cons, Nat.add_sub_cancel]
      ring

theorem sumLen_eq_natCast (ws : List Str) : sumLen ws = ((ws.map List.length).sum : Nat) := by
  induction ws with
  | nil => simp [sumLen]
  | cons u ws ih => simp [sumLen, ih]

/-- What `joinDocs` returns when it returns a chunk. -/
theorem joinDocs_eq_some {docs : List Str} {sep c : Str} (h : joinDocs docs sep = some c) :
    c = trimL (listIntercalate sep docs) ∧ c ≠ [] := by
  simp only [joinDocs] at h
  split at h
  · exact absurd h (by simp)
  · rename_i he
    injection h with h
    subst h
    exact ⟨rfl, he⟩

/-! ### The eviction loop -/

/-- Whenever the eviction loop returns, it has preserved the invariant that
the running total is the summed length of the window, and the resulting
window is a suffix (front-drop) of the input window. -/
theorem evictLoop_sum (cfg : SplitterConfig) (len : Int) :
    ∀ window total total2 window2, evictLoop cfg len total window = some (total2, window2) →
      total = sumLen window → total2 = sumLen window2 ∧ ∃ k, window2 = window.drop k := by
  intro window
  induction window with
  | nil =>
    intro total t2 w2 h hs
    simp only [evictLoop] at h
    split at h
    · exact absurd h (by simp)
    · simp only [Option.some.injEq, Prod.mk.injEq] at h
      obtain ⟨rfl, rfl⟩ := h
      exact ⟨hs, 0, rfl⟩
  | cons u rest ih =>
    intro total t2 w2 h hs
    simp only [evictLoop] at h
    split at h
    · have hs2 : total - (u.length : Int) = sumLen rest := by
        simp only [sumLen] at hs; omega
      obtain ⟨h1, k, hk⟩ := ih _ _ _ h hs2
      exact ⟨h1, k + 1, by simpa using hk⟩
    · simp only [Option.some.injEq, Prod.mk.injEq] at h
      obtain ⟨rfl, rfl⟩ := h
      exact ⟨hs, 0, rfl⟩

/-- With a non-negative `chunkOverlap` the eviction loop always terminates
without reading past the front of the window: the running total equals the
summed window length, so when the window empties the total is `0` and the
loop condition fails.  The exit state satisfies the negation of the loop
condition. -/
theorem evictLoop_spec (cfg : SplitterConfig) (len : Int) (h0 : 0 ≤ cfg.chunkOverlap) :
    ∀ window total, total = sumLen window →
      ∃ t2 w2, evictLoop cfg len total window = some (t2, w2) ∧ t2 = sumLen w2 ∧
        (∃ k, w2 = window.drop k) ∧ t2 ≤ cfg.chunkOverlap ∧
        (t2 + len ≤ cfg.chunkSize ∨ t2 ≤ 0) := by
  intro window
  induction window with
  | nil =>
    intro total hs
    have ht : total = 0 := by simpa [sumLen] using hs
    subst ht
    exact ⟨0, [], by simp only [evictLoop]; rw [if_neg (by omega)], by simp [sumLen],
      ⟨0, rfl⟩, h0, Or.inr le_rfl⟩
  | cons u rest ih =>
    intro total hs
    by_cases hc : total > cfg.chunkOverlap ∨ (total + len > cfg.chunkSize ∧ total > 0)
    · have hs2 : total - (u.length : Int) = sumLen rest := by
        simp only [sumLen] at hs; omega
      obtain ⟨t2, w2, heq, h1, ⟨k, hk⟩, h3, h4⟩ := ih _ hs2
      refine ⟨t2, w2, ?_, h1, ⟨k + 1, by simpa using hk⟩, h3, h4⟩
      simp only [evictLoop]
      rw [if_pos hc]
      exact heq
    · refine ⟨total, u :: rest, ?_, hs, ⟨0, rfl⟩, by omega, by omega⟩
      simp only [evictLoop]
      rw [if_neg hc]

/-! ### The merge loop -/

theorem mergeLoop_nil (cfg : SplitterConfig) (sep : Str) (docs w : List Str) (t : Int) :
    mergeLoop cfg sep docs w t [] = some (docs, w, t) := rfl

/-- One-step unfolding of the merge loop. -/
theorem mergeLoop_cons (cfg : SplitterConfig) (sep : Str) (docs w : List Str) (t : Int)
    (d : Str) (rest : List Str) :
    mergeLoop cfg sep docs w t (d :: rest) =
      if t + (d.length : Int) + (if w.length > 0 then (sep.length : Int) else 0) >
          cfg.chunkSize then
        if w.length > 0 then
          match evictLoop cfg (d.length : Int) t w with
          | none => none
          | some (t2, w2) =>
            mergeLoop cfg sep
              (match joinDocs w sep with | some doc => docs ++ [doc] | none => docs)
              (w2 ++ [d]) (t2 + (d.length : Int)) rest
        else
          mergeLoop cfg sep docs (w ++ [d]) (t + (d.length : Int)) rest
      else
        mergeLoop cfg sep docs (w ++ [d]) (t + (d.length : Int)) rest := rfl

/-- The merge loop processes its input compositionally: running it on a
concatenation passes through the state reached after the first part. -/
theorem mergeLoop_append (cfg : SplitterConfig) (sep : Str) :
    ∀ s1 s2 : List Str, ∀ docs w : List Str, ∀ t : Int,
      mergeLoop cfg sep docs w t (s1 ++ s2) =
        match mergeLoop cfg sep docs w t s1 with
        | none => none
        | some (d2, w2, t2) => mergeLoop cfg sep d2 w2 t2 s2 := by
  intro s1
  induction s1 with
  | nil => intro s2 docs w t; rfl
  | cons d rest ih =>
    intro s2 docs w t
    rw [List.cons_append, mergeLoop_cons, mergeLoop_cons]
    by_cases hc : t + (d.length : Int) +
        (if w.length > 0 then (sep.length : Int) else 0) > cfg.chunkSize
    · rw [if_pos hc, if_pos hc]
      by_cases hw : w.length > 0
      · rw [if_pos hw, if_pos hw]
        cases evictLoop cfg (d.length : Int) t w with
        | none => rfl
        | some p => exact ih s2 _ _ _
      · rw [if_neg hw, if_neg hw]
        exact ih s2 _ _ _
    · rw [if_neg hc, if_neg hc]
      exact ih s2 _ _ _

/-- Invariant of the merge loop: whenever it returns, the final running
total is the summed length of the final window (separator lengths are never
added to the total). -/
theorem mergeLoop_sum (cfg : SplitterConfig) (sep : Str) :
    ∀ splits docs w : List Str, ∀ t : Int, ∀ d2 w2 : List Str, ∀ t2 : Int,
      mergeLoop cfg sep docs w t splits = some (d2, w2, t2) →
      t = sumLen w → t2 = sumLen w2 := by
  intro splits
  induction splits with
  | nil =>
    intro docs w t d2 w2 t2 h hs
    rw [mergeLoop_nil] at h
    simp only [Option.some.injEq, Prod.mk.injEq] at h
    obtain ⟨rfl, rfl, rfl⟩ := h
    exact hs
  | cons d rest ih =>
    intro docs w t d2 w2 t2 h hs
    rw [mergeLoop_cons] at h
    have hpush : t + (d.length : Int) = sumLen (w ++ [d]) := by
      rw [sumLen_append, ← hs]; simp [sumLen]
    by_cases hc : t + (d.length : Int) +
        (if w.length > 0 then (sep.length : Int) else 0) > cfg.chunkSize
    · rw [if_pos hc] at h
      by_cases hw : w.length > 0
      · rw [if_pos hw] at h
        rcases hev : evictLoop cfg (d.length : Int) t w with _ | ⟨te, we⟩
        · rw [hev] at h; exact absurd h (by simp)
        · rw [hev] at h
          obtain ⟨hsum, -⟩ := evictLoop_sum cfg _ _ _ _ _ hev hs
          have hinv : te + (d.length : Int) = sumLen (we ++ [d]) := by
            rw [sumLen_append, hsum]; simp [sumLen]
          exact ih _ _ _ _ _ _ h hinv
      · rw [if_neg hw] at h
        exact ih _ _ _ _ _ _ h hpush
    · rw [if_neg hc] at h
      exact ih _ _ _ _ _ _ h hpush

/-- Shape invariant of the merge loop, with no assumption on the units: the
loop never crashes when `chunkOverlap` is non-negative, its window is always
a contiguous run of the incoming units, and every emitted chunk is the
trimmed separator-join of such a run and is nonempty. -/
theorem mergeLoop_shape (cfg : SplitterConfig) (sep : Str) (h0 : 0 ≤ cfg.chunkOverlap) :
    ∀ splits docs w : List Str, ∀ t : Int, t = sumLen w →
      ∃ d2 w2 t2, mergeLoop cfg sep docs w t splits = some (d2, w2, t2) ∧
        t2 = sumLen w2 ∧ (∃ u v, w ++ splits = u ++ w2 ++ v) ∧
        ∀ c ∈ d2, c ∈ docs ∨ ∃ ws u v, w ++ splits = u ++ ws ++ v ∧
          c = trimL (listIntercalate sep ws) ∧ c ≠ [] := by
  intro splits
  induction splits with
  | nil =>
    intro docs w t hs
    exact ⟨docs, w, t, mergeLoop_nil cfg sep docs w t, hs, ⟨[], [], by simp⟩,
      fun c hc => Or.inl hc⟩
  | cons d rest ih =>
    intro docs w t hs
    have hpush : t + (d.length : Int) = sumLen (w ++ [d]) := by
      rw [sumLen_append, ← hs]; simp [sumLen]
    rw [mergeLoop_cons]
    by_cases hc : t + (d.length : Int) +
        (if w.length > 0 then (sep.length : Int) else 0) > cfg.chunkSize
    · rw [if_pos hc]
      by_cases hw : w.length > 0
      · rw [if_pos hw]
        obtain ⟨te, we, hev, hsum, ⟨k, hk⟩, -, -⟩ := evictLoop_spec cfg (d.length : Int) h0 w t hs
        rw [hev]
        have hinv : te + (d.length : Int) = sumLen (we ++ [d]) := by
          rw [sumLen_append, hsum]; simp [sumLen]
        obtain ⟨d2, w2, t2, heq, h1, ⟨u, v, hw2⟩, hdocs⟩ :=
          ih (match joinDocs w sep with | some doc => docs ++ [doc] | none => docs)
            (we ++ [d]) _ hinv
        have hwk : w = w.take k ++ we := by
          rw [hk]; exact (List.take_append_drop k w).symm
        have hsplit : w ++ d :: rest = w.take k ++ ((we ++ [d]) ++ rest) := by
          conv_lhs => rw [hwk]
          simp
        refine ⟨d2, w2, t2, heq, h1, ?_, ?_⟩
        · refine ⟨w.take k ++ u, v, ?_⟩
          rw [hsplit, hw2]
          simp
        · intro c hcm
          rcases hdocs c hcm with h' | ⟨ws, u', v', hww, hc1, hc2⟩
          · rcases hjd : joinDocs w sep with _ | doc
            · rw [hjd] at h'
              exact Or.inl h'
            · rw [hjd] at h'
              rcases List.mem_append.mp h' with h'' | h''
              · exact Or.inl h''
              · have hdoc := joinDocs_eq_some hjd
                have hcd : c = doc := by simpa using h''
                subst hcd
                exact Or.inr ⟨w, [], d :: rest, by simp, hdoc.1, hdoc.2⟩
          · refine Or.inr ⟨ws, w.take k ++ u', v', ?_, hc1, hc2⟩
            rw [hsplit, hww]
            simp
      · rw [if_neg hw]
        obtain ⟨d2, w2, t2, heq, h1, ⟨u, v, hw2⟩, hdocs⟩ := ih docs (w ++ [d]) _ hpush
        refine ⟨d2, w2, t2, heq, h1, ⟨u, v, ?_⟩, ?_⟩
        · rw [List.append_cons]; exact hw2
        · intro c hcm
          rcases hdocs c hcm with h' | ⟨ws, u', v', hww, hc1, hc2⟩
          · exact Or.inl h'
          · exact Or.inr ⟨ws, u', v', by rw [List.append_cons]; exact hww, hc1, hc2⟩
    · rw [if_neg hc]
      obtain ⟨d2, w2, t2, heq, h1, ⟨u, v, hw2⟩, hdocs⟩ := ih docs (w ++ [d]) _ hpush
      refine ⟨d2, w2, t2, heq, h1, ⟨u, v, ?_⟩, ?_⟩
      · rw [List.append_cons]; exact hw2
      · intro c hcm
        rcases hdocs c hcm with h' | ⟨ws, u', v', hww, hc1, hc2⟩
        · exact Or.inl h'
        · exact Or.inr ⟨ws, u', v', by rw [List.append_cons]; exact hww, hc1, hc2⟩

/-- Size invariant of the merge loop: when every incoming unit is shorter
than `chunkSize` (and the configuration is sane), the summed length of the
window never exceeds `chunkSize`, so every chunk the loop emits is the
trimmed separator-join of units whose summed length is within the budget. -/
theorem mergeLoop_bounded (cfg : SplitterConfig) (sep : Str) (h0 : 0 ≤ cfg.chunkOverlap) :
    ∀ splits docs w : List Str, ∀ t : Int, t = sumLen w → t ≤ cfg.chunkSize →
      (∀ u ∈ w, (u.length : Int) < cfg.chunkSize) →
      (∀ u ∈ splits, (u.length : Int) < cfg.chunkSize) →
      ∃ d2 w2 t2, mergeLoop cfg sep docs w t splits = some (d2, w2, t2) ∧
        t2 = sumLen w2 ∧ t2 ≤ cfg.chunkSize ∧
        (∀ u ∈ w2, (u.length : Int) < cfg.chunkSize) ∧
        ∀ c ∈ d2, c ∈ docs ∨ MChunk cfg sep c := by
  intro splits
  induction splits with
  | nil =>
    intro docs w t hs hb hw _
    exact ⟨docs, w, t, mergeLoop_nil cfg sep docs w t, hs, hb, hw, fun c hc => Or.inl hc⟩
  | cons d rest ih =>
    intro docs w t hs hb hwu hsu
    have hd : (d.length : Int) < cfg.chunkSize := hsu d (by simp)
    have hrest : ∀ u ∈ rest, (u.length : Int) < cfg.chunkSize :=
      fun u hu => hsu u (by simp [hu])
    have hpush : t + (d.length : Int) = sumLen (w ++ [d]) := by
      rw [sumLen_append, ← hs]; simp [sumLen]
    rw [mergeLoop_cons]
    by_cases hc : t + (d.length : Int) +
        (if w.length > 0 then (sep.length : Int) else 0) > cfg.chunkSize
    · rw [if_pos hc]
      by_cases hw : w.length > 0
      · rw [if_pos hw]
        obtain ⟨te, we, hev, hsum, ⟨k, hk⟩, hov, hfit⟩ :=
          evictLoop_spec cfg (d.length : Int) h0 w t hs
        rw [hev]
        have hinv : te + (d.length : Int) = sumLen (we ++ [d]) := by
          rw [sumLen_append, hsum]; simp [sumLen]
        have hweu : ∀ u ∈ we, (u.length : Int) < cfg.chunkSize := by
          intro u hu
          exact hwu u (List.drop_subset k w (hk ▸ hu))
        have hte0 : 0 ≤ te := hsum ▸ sumLen_nonneg we
        have hbound : te + (d.length : Int) ≤ cfg.chunkSize := by
          rcases hfit with h' | h'
          · exact h'
          · omega
        have hwdu : ∀ u ∈ we ++ [d], (u.length : Int) < cfg.chunkSize := by
          intro u hu
          rcases List.mem_append.mp hu with h' | h'
          · exact hweu u h'
          · have : u = d := by simpa using h'
            exact this ▸ hd
        obtain ⟨d2, w2, t2, heq, h1, h2, h3, hdocs⟩ :=
          ih (match joinDocs w sep with | some doc => docs ++ [doc] | none => docs)
            (we ++ [d]) _ hinv (hinv ▸ hbound) hwdu hrest
        refine ⟨d2, w2, t2, heq, h1, h2, h3, ?_⟩
        intro c hcm
        rcases hdocs c hcm with h' | h'
        · rcases hjd : joinDocs w sep with _ | doc
          · rw [hjd] at h'
            exact Or.inl h'
          · rw [hjd] at h'
            rcases List.mem_append.mp h' with h'' | h''
            · exact Or.inl h''
            · have hdoc := joinDocs_eq_some hjd
              have hcd : c = doc := by simpa using h''
              subst hcd
              exact Or.inr ⟨w, hdoc.1, hs ▸ hb, hwu, hdoc.2⟩
        · exact Or.inr h'
      · rw [if_neg hw]
        have hwnil : w = [] := List.length_eq_zero.mp (by omega)
        have ht0 : t = 0 := by rw [hs, hwnil]; rfl
        rw [if_neg hw] at hc
        exact absurd hc (by omega)
    · rw [if_neg hc]
      have hite : (0 : Int) ≤ if w.length > 0 then (sep.length : Int) else 0 := by
        split
        · positivity
        · exact le_rfl
      have hbound : t + (d.length : Int) ≤ cfg.chunkSize := by omega
      have hwdu : ∀ u ∈ w ++ [d], (u.length : Int) < cfg.chunkSize := by
        intro u hu
        rcases List.mem_append.mp hu with h' | h'
        · exact hwu u h'
        · have : u = d := by simpa using h'
          exact this ▸ hd
      obtain ⟨d2, w2, t2, heq, h1, h2, h3, hdocs⟩ :=
        ih docs (w ++ [d]) _ hpush (hpush ▸ hbound) hwdu hrest
      exact ⟨d2, w2, t2, heq, h1, h2, h3, hdocs⟩

/-- Reduction of `mergeSplits` through the result of its main loop. -/
theorem mergeSplits_eq (cfg : SplitterConfig) (sep : Str) (splits : List Str)
    (d2 w2 : List Str) (t2 : Int) (h : mergeLoop cfg sep [] [] 0 splits = some (d2, w2, t2)) :
    mergeSplits cfg splits sep =
      match joinDocs w2 sep with
      | some doc => some (d2 ++ [doc])
      | none => some d2 := by
  unfold mergeSplits
  rw [h]

/-- The behaviour of `mergeSplits` on the empty unit sequence. -/
theorem mergeSplits_nil (cfg : SplitterConfig) (sep : Str) :
    mergeSplits cfg [] sep = some [] := rfl

/-- `mergeSplits` with non-negative overlap: it returns, every chunk is the
trimmed separator-join of a contiguous run of input units and is nonempty,
and the empty input gives the empty output. -/
theorem mergeSplits_shape (cfg : SplitterConfig) (sep : Str) (splits : List Str)
    (h0 : 0 ≤ cfg.chunkOverlap) :
    ∃ docs, mergeSplits cfg splits sep = some docs ∧
      (∀ c ∈ docs, ∃ ws u v, splits = u ++ ws ++ v ∧
        c = trimL (listIntercalate sep ws) ∧ c ≠ []) ∧
      (splits = [] → docs = []) := by
  cases splits with
  | nil =>
    exact ⟨[], mergeSplits_nil cfg sep, by simp, fun _ => rfl⟩
  | cons s ss =>
    obtain ⟨d2, w2, t2, heq, h1, ⟨u0, v0, hw0⟩, hdocs⟩ :=
      mergeLoop_shape cfg sep h0 (s :: ss) [] [] 0 (by simp [sumLen])
    simp only [List.nil_append] at hw0 hdocs
    have hmain : ∀ c, (c ∈ d2 ∨ c ∈ (match joinDocs w2 sep with
        | some doc => [doc] | none => ([] : List Str))) →
        ∃ ws u v, s :: ss = u ++ ws ++ v ∧ c = trimL (listIntercalate sep ws) ∧ c ≠ [] := by
      intro c hc
      rcases hc with hc | hc
      · rcases hdocs c hc with h' | h'
        · exact absurd h' (List.not_mem_nil c)
        · exact h'
      · rcases hjd : joinDocs w2 sep with _ | doc
        · rw [hjd] at hc
          exact absurd hc (List.not_mem_nil c)
        · rw [hjd] at hc
          have hcd : c = doc := by simpa using hc
          subst hcd
          have hdoc := joinDocs_eq_some hjd
          exact ⟨w2, u0, v0, hw0, hdoc.1, hdoc.2⟩
    have hms := mergeSplits_eq cfg sep (s :: ss) d2 w2 t2 heq
    rcases hjd : joinDocs w2 sep with _ | doc
    · rw [hjd] at hms
      refine ⟨d2, hms, ?_, by simp⟩
      intro c hc
      exact hmain c (Or.inl hc)
    · rw [hjd] at hms
      refine ⟨d2 ++ [doc], hms, ?_, by simp⟩
      intro c hc
      rcases List.mem_append.mp hc with h' | h'
      · exact hmain c (Or.inl h')
      · exact hmain c (Or.inr (by rw [hjd]; exact h'))

/-- `mergeSplits` on units that are all shorter than `chunkSize`: it
returns, and every chunk satisfies `MChunk` (a trimmed join of a unit run
whose summed length is at most `chunkSize`). -/
theorem mergeSplits_bounded (cfg : SplitterConfig) (sep : Str) (splits : List Str)
    (h0 : 0 ≤ cfg.chunkOverlap) (hS : 0 ≤ cfg.chunkSize)
    (hu : ∀ u ∈ splits, (u.length : Int) < cfg.chunkSize) :
    ∃ docs, mergeSplits cfg splits sep = some docs ∧ ∀ c ∈ docs, MChunk cfg sep c := by
  obtain ⟨d2, w2, t2, heq, h1, h2, h3, hdocs⟩ :=
    mergeLoop_bounded cfg sep h0 splits [] [] 0 (by simp [sumLen]) hS (by simp) hu
  have hms := mergeSplits_eq cfg sep splits d2 w2 t2 heq
  rcases hjd : joinDocs w2 sep with _ | doc
  · rw [hjd] at hms
    refine ⟨d2, hms, ?_⟩
    intro c hc
    exact (hdocs c hc).resolve_left (List.not_mem_nil c)
  · rw [hjd] at hms
    refine ⟨d2 ++ [doc], hms, ?_⟩
    intro c hc
    rcases List.mem_append.mp hc with h' | h'
    · exact (hdocs c h').resolve_left (List.not_mem_nil c)
    · have hcd : c = doc := by simpa using h'
      subst hcd
      have hdoc := joinDocs_eq_some hjd
      exact ⟨w2, hdoc.1, h1 ▸ h2, h3, hdoc.2⟩

/-! ### The token-window loop -/

/-- Unfolded description of the token loop: starting at `start` with exactly
`m` iterations left (`start + m*(chunkSize-chunkOverlap)` reaches the end of
the ids and every earlier window start is in range), the loop appends the
decodings of the `m` windows and stops, provided it is given more than `m`
units of fuel. -/
theorem tokenLoop_spec (cfg : SplitterConfig) (dec : List Int → Str) (ids : List Int) :
    ∀ m fuel : Nat, ∀ start : Int, ∀ acc : List Str, m < fuel →
      ((ids.length : Int) ≤ start + (m : Int) * (cfg.chunkSize - cfg.chunkOverlap)) →
      (∀ k : Nat, k < m →
        start + (k : Int) * (cfg.chunkSize - cfg.chunkOverlap) < (ids.length : Int)) →
      tokenLoop cfg dec ids fuel start acc = some (acc ++ (List.range m).map (fun (k : Nat) =>
        dec (jsSliceInt ids (start + (k : Int) * (cfg.chunkSize - cfg.chunkOverlap))
          (min (start + (k : Int) * (cfg.chunkSize - cfg.chunkOverlap) + cfg.chunkSize)
            (ids.length : Int))))) := by
  intro m
  induction m with
  | zero =>
    intro fuel start acc hf h1 _
    cases fuel with
    | zero => omega
    | succ f =>
      simp only [tokenLoop]
      rw [if_neg (by push_cast at h1; omega)]
      simp
  | succ m ih =>
    intro fuel start acc hf h1 h3
    cases fuel with
    | zero => omega
    | succ f =>
      have hstart : start < (ids.length : Int) := by
        have h := h3 0 (by omega)
        simpa using h
      simp only [tokenLoop]
      rw [if_pos hstart]
      have h1' : (ids.length : Int) ≤ (start + (cfg.chunkSize - cfg.chunkOverlap)) +
          (m : Int) * (cfg.chunkSize - cfg.chunkOverlap) := by
        have hcast : ((m + 1 : Nat) : Int) * (cfg.chunkSize - cfg.chunkOverlap) =
            (m : Int) * (cfg.chunkSize - cfg.chunkOverlap) +
            (cfg.chunkSize - cfg.chunkOverlap) := by push_cast; ring
        rw [hcast] at h1
        linarith
      have h3' : ∀ k : Nat, k < m →
          (start + (cfg.chunkSize - cfg.chunkOverlap)) +
            (k : Int) * (cfg.chunkSize - cfg.chunkOverlap) < (ids.length : Int) := by
        intro k hk
        have h := h3 (k + 1) (by omega)
        have hcast : start + ((k + 1 : Nat) : Int) * (cfg.chunkSize - cfg.chunkOverlap) =
            (start + (cfg.chunkSize - cfg.chunkOverlap)) +
            (k : Int) * (cfg.chunkSize - cfg.chunkOverlap) := by push_cast; ring
        rw [hcast] at h
        exact h
      rw [ih f (start + (cfg.chunkSize - cfg.chunkOverlap)) _ (by omega) h1' h3']
      congr 1
      rw [List.range_succ_eq_map, List.map_cons, List.map_map]
      have hzero : start + ((0 : Nat) : Int) * (cfg.chunkSize - cfg.chunkOverlap) = start := by
        norm_num
      rw [List.append_assoc, List.singleton_append]
      congr 2
      · rw [hzero]
      apply List.map_congr_left
      intro k _
      have hcast : start + ((k + 1 : Nat) : Int) * (cfg.chunkSize - cfg.chunkOverlap) =
          (start + (cfg.chunkSize - cfg.chunkOverlap)) +
          (k : Int) * (cfg.chunkSize - cfg.chunkOverlap) := by push_cast; ring
      simp only [Function.comp, Nat.succ_eq_add_one, hcast]

/-- Arithmetic of natural ceiling division `(n + d - 1) / d`: it is the
least number of steps of size `d` that reach `n`, and is at most `n`. -/
theorem ceil_div_spec (n d' : Nat) (hd : 1 ≤ d') :
    n ≤ ((n + d' - 1) / d') * d' ∧
    (∀ k : Nat, k < (n + d' - 1) / d' → k * d' < n) ∧
    (n + d' - 1) / d' ≤ n := by
  have hdm := Nat.div_add_mod (n + d' - 1) d'
  have hr : (n + d' - 1) % d' < d' := Nat.mod_lt _ (by omega)
  set m := (n + d' - 1) / d' with hm_def
  set r := (n + d' - 1) % d' with hr_def
  set P := d' * m with hP_def
  have key1 : n ≤ P := by omega
  have key3 : m ≤ n := by
    by_contra hcon
    push_neg at hcon
    have h1 : d' * (n + 1) ≤ P := by
      rw [hP_def]
      exact Nat.mul_le_mul_left d' (by omega)
    have h2 : n ≤ d' * n := Nat.le_mul_of_pos_left n (by omega)
    have h3 : d' * (n + 1) = d' * n + d' := by ring
    set Q := d' * n with hQ_def
    omega
  refine ⟨by rw [Nat.mul_comm]; exact key1, ?_, key3⟩
  intro k hk
  have hk1 : k * d' ≤ (m - 1) * d' := Nat.mul_le_mul_right d' (by omega)
  have hmm : (m - 1) * d' = P - d' := by
    rw [Nat.sub_one_mul, Nat.mul_comm m d', ← hP_def]
  rw [hmm] at hk1
  set K := k * d' with hK_def
  omega

/-- `numWindows` is the exact iteration count of the token loop: the least
number of advances of `chunkSize - chunkOverlap` that reaches the end of the
token sequence; it never exceeds the number of tokens. -/
theorem numWindows_spec (cfg : SplitterConfig) (n : Nat) (hv : cfg.chunkOverlap < cfg.chunkSize) :
    ((n : Int) ≤ (numWindows cfg n : Int) * (cfg.chunkSize - cfg.chunkOverlap)) ∧
    (∀ k : Nat, k < numWindows cfg n →
      (k : Int) * (cfg.chunkSize - cfg.chunkOverlap) < (n : Int)) ∧
    numWindows cfg n ≤ n := by
  have hd1 : 1 ≤ (cfg.chunkSize - cfg.chunkOverlap).toNat := by omega
  have hcast : ((cfg.chunkSize - cfg.chunkOverlap).toNat : Int) =
      cfg.chunkSize - cfg.chunkOverlap := by omega
  obtain ⟨h1, h2, h3⟩ := ceil_div_spec n (cfg.chunkSize - cfg.chunkOverlap).toNat hd1
  unfold numWindows
  refine ⟨?_, ?_, h3⟩
  · rw [← hcast]
    exact_mod_cast h1
  · intro k hk
    rw [← hcast]
    exact_mod_cast h2 k hk

/-- Full description of the token loop from its initial state, for a valid
configuration: with fuel one more than the token count it terminates and
produces exactly the decodings of the `numWindows` windows. -/
theorem token_main (cfg : SplitterConfig) (dec : List Int → Str) (ids : List Int)
    (hv : cfg.chunkOverlap < cfg.chunkSize) :
    tokenLoop cfg dec ids (ids.length + 1) 0 [] =
      some ((List.range (numWindows cfg ids.length)).map (fun (k : Nat) =>
        dec (jsSliceInt ids ((k : Int) * (cfg.chunkSize - cfg.chunkOverlap))
          (min ((k : Int) * (cfg.chunkSize - cfg.chunkOverlap) + cfg.chunkSize)
            (ids.length : Int))))) := by
  obtain ⟨h1, h2, h3⟩ := numWindows_spec cfg ids.length hv
  have h := tokenLoop_spec cfg dec ids (numWindows cfg ids.length) (ids.length + 1) 0 []
    (by omega) (by simpa using h1) (by intro k hk; simpa using h2 k hk)
  simpa using h

/-! ### Claim theorems: constructor, merge engine, token windows -/

/-- C1: construction fails (throws) precisely when the effective
`chunkOverlap` is at least the effective `chunkSize`; when it succeeds the
resulting configuration satisfies `chunkOverlap < chunkSize`.  The check is
part of the constructor itself, so the error is raised at construction
time. -/
theorem c1_constructor_validates (fields : SplitterFields) :
    ((mkSplitterConfig fields).isOk ↔
      fields.chunkOverlap.getD 200 < fields.chunkSize.getD 1000) ∧
    ∀ cfg, mkSplitterConfig fields = Except.ok cfg →
      cfg.chunkOverlap < cfg.chunkSize := by
  simp only [mkSplitterConfig]
  by_cases h : fields.chunkOverlap.getD 200 ≥ fields.chunkSize.getD 1000
  · rw [if_pos h]
    refine ⟨?_, ?_⟩
    · simp only [Except.isOk, Except.toBool]
      constructor
      · intro hfalse
        exact absurd hfalse (by simp)
      · intro hlt
        omega
    · intro cfg hcfg
      exact absurd hcfg (by simp)
  · rw [if_neg h]
    push_neg at h
    refine ⟨?_, ?_⟩
    · simp only [Except.isOk, Except.toBool]
      exact ⟨fun _ => h, fun _ => trivial⟩
    · intro cfg hcfg
      injection hcfg with hcfg
      subst hcfg
      exact h

theorem c1_witness :
    (⟨10, 2⟩ : SplitterConfig).chunkOverlap < (⟨10, 2⟩ : SplitterConfig).chunkSize :=
  (c1_constructor_validates ⟨some 10, some 2⟩).2 ⟨10, 2⟩ (by rfl)

/-- C9: the worked example of the fixed-separator splitter:
`chunkSize = 10`, `chunkOverlap = 0`, separator a single space, input
"aaaa bbbb cccc dddd", output exactly ["aaaa bbbb", "cccc dddd"]. -/
theorem c9_fixed_separator_example :
    characterSplitText ⟨10, 0⟩ [' '] "aaaa bbbb cccc dddd".data =
      some ["aaaa bbbb".data, "cccc dddd".data] := by decide

/-- C10: with non-negative `chunkOverlap` the eviction loop always returns
(its only `none` result models the out-of-bounds read of `currentDoc[0]` on
an empty window), because the running total equals the summed window length
and therefore reaches zero exactly when the window is empty; consequently
`mergeSplits` never crashes either. -/
theorem c10_eviction_safety (cfg : SplitterConfig) (sep : Str) (splits : List Str)
    (len total : Int) (window : List Str)
    (h0 : 0 ≤ cfg.chunkOverlap) (hsum : total = sumLen window) :
    (evictLoop cfg len total window).isSome = true ∧
    (mergeSplits cfg splits sep).isSome = true := by
  constructor
  · obtain ⟨t2, w2, heq, -⟩ := evictLoop_spec cfg len h0 window total hsum
    rw [heq]
    rfl
  · obtain ⟨docs, heq, -⟩ := mergeSplits_shape cfg sep splits h0
    rw [heq]
    rfl

theorem c10_witness :
    (evictLoop ⟨3, 0⟩ 2 2 [['a'], ['b']]).isSome = true ∧
    (mergeSplits ⟨3, 0⟩ [['a', 'a'], ['b', 'b'], ['c', 'c']] [' ']).isSome = true :=
  c10_eviction_safety ⟨3, 0⟩ [' '] [['a', 'a'], ['b', 'b'], ['c', 'c']] 2 2 [['a'], ['b']]
    (by decide) (by decide)

/-- C5, counterexample: after merging the two units "aa", "bb" with the
one-character separator " " (chunkSize 100), the running total is 4, the
summed unit lengths; the claimed value — unit lengths plus the one separator
accounted between the two window entries — would be 5.  Separator lengths
are never added to the running total. -/
theorem c5_counterexample :
    mergeLoop ⟨100, 0⟩ [' '] [] [] 0 [['a', 'a'], ['b', 'b']] =
      some ([], [['a', 'a'], ['b', 'b']], 4) ∧
    ¬ ((4 : Int) = sumLen [['a', 'a'], ['b', 'b']] +
        (([' '] : Str).length : Int) * (2 - 1)) := by decide

/-- C5, amended: throughout processing (that is, after any prefix of the
input, through which the loop on the full input passes compositionally) the
running total equals the sum of the lengths of the units currently in the
window; separator lengths are not included. -/
theorem c5_amended_total_invariant (cfg : SplitterConfig) (sep : Str)
    (splits1 splits2 docs w : List Str) (t : Int)
    (h : mergeLoop cfg sep [] [] 0 splits1 = some (docs, w, t)) :
    t = sumLen w ∧
    mergeLoop cfg sep [] [] 0 (splits1 ++ splits2) = mergeLoop cfg sep docs w t splits2 := by
  refine ⟨mergeLoop_sum cfg sep splits1 [] [] 0 docs w t h (by simp [sumLen]), ?_⟩
  rw [mergeLoop_append cfg sep splits1 splits2 [] [] 0, h]

theorem c5_amended_witness :
    (4 : Int) = sumLen [['a', 'a'], ['b', 'b']] ∧
    mergeLoop ⟨100, 0⟩ [' '] [] [] 0 ([['a', 'a'], ['b', 'b']] ++ [['c', 'c']]) =
      mergeLoop ⟨100, 0⟩ [' '] [] [['a', 'a'], ['b', 'b']] 4 [['c', 'c']] :=
  c5_amended_total_invariant ⟨100, 0⟩ [' '] [['a', 'a'], ['b', 'b']] [['c', 'c']]
    [] [['a', 'a'], ['b', 'b']] 4 (by decide)

/-- C6: with non-negative overlap, `mergeSplits` returns; every chunk it
emits is the trimmed separator-join of a contiguous run of the input units,
is never the empty string (an empty trim result is discarded), and the empty
input produces the empty output. -/
theorem c6_merge_chunk_shape (cfg : SplitterConfig) (sep : Str) (splits : List Str)
    (h0 : 0 ≤ cfg.chunkOverlap) :
    ∃ docs, mergeSplits cfg splits sep = some docs ∧
      (∀ c ∈ docs, ∃ ws u v, splits = u ++ ws ++ v ∧
        c = trimL (listIntercalate sep ws) ∧ c ≠ []) ∧
      (splits = [] → docs = []) :=
  mergeSplits_shape cfg sep splits h0

theorem c6_witness :
    ∃ docs, mergeSplits ⟨10, 0⟩ [['a', 'a', 'a', 'a'], ['b', 'b', 'b', 'b']] [' '] =
        some docs ∧
      (∀ c ∈ docs, ∃ ws u v, [['a', 'a', 'a', 'a'], ['b', 'b', 'b', 'b']] = u ++ ws ++ v ∧
        c = trimL (listIntercalate [' '] ws) ∧ c ≠ []) ∧
      ([['a', 'a', 'a', 'a'], ['b', 'b', 'b', 'b']] = ([] : List Str) → docs = []) :=
  c6_merge_chunk_shape ⟨10, 0⟩ [' '] [['a', 'a', 'a', 'a'], ['b', 'b', 'b', 'b']] (by decide)

/-- C4, counterexample: with the valid configuration `chunkSize = 5`,
`chunkOverlap = 2` and ten tokens, the token loop produces 4 windows
(starts 0, 3, 6, 9), while the claimed formula
`ceil((N - chunkOverlap) / (chunkSize - chunkOverlap))` gives 3. -/
theorem c4_counterexample :
    ((2 : Int) < 5) ∧
    (tokenLoop ⟨5, 2⟩ (fun _ => ([] : Str)) [0, 1, 2, 3, 4, 5, 6, 7, 8, 9] 20 0 []).map
        List.length = some 4 ∧
    (((10 : Int) - 2) + ((5 : Int) - 2) - 1) / ((5 : Int) - 2) = 3 ∧
    ¬ ((4 : Int) = 3) := by decide

/-- C4, amended: for a valid configuration and a text whose tokenization has
`N > 0` tokens, the token-window splitter returns exactly
`ceil(N / (chunkSize - chunkOverlap))` chunks (the `numWindows` count),
rather than `ceil((N - chunkOverlap) / (chunkSize - chunkOverlap))`. -/
theorem c4_amended_window_count (cfg : SplitterConfig) (encode : Str → List Int)
    (decode : List Int → Str) (text : Str)
    (hv : cfg.chunkOverlap < cfg.chunkSize) (_hN : 0 < (encode text).length) :
    ∃ chunks, tokenSplitText cfg encode decode ((encode text).length + 1) text =
        some chunks ∧
      chunks.length = numWindows cfg (encode text).length := by
  have h : tokenSplitText cfg encode decode ((encode text).length + 1) text =
      some ((List.range (numWindows cfg (encode text).length)).map (fun (k : Nat) =>
        decode (jsSliceInt (encode text)
          ((k : Int) * (cfg.chunkSize - cfg.chunkOverlap))
          (min ((k : Int) * (cfg.chunkSize - cfg.chunkOverlap) + cfg.chunkSize)
            ((encode text).length : Int))))) := by
    unfold tokenSplitText
    exact token_main cfg decode (encode text) hv
  exact ⟨_, h, by simp⟩

theorem c4_amended_witness :
    ∃ chunks, tokenSplitText ⟨5, 2⟩ (fun _ => [0, 1, 2, 3, 4, 5, 6, 7, 8, 9])
        (fun _ => ([] : Str)) 11 [] = some chunks ∧
      chunks.length = numWindows ⟨5, 2⟩ 10 :=
  c4_amended_window_count ⟨5, 2⟩ (fun _ => [0, 1, 2, 3, 4, 5, 6, 7, 8, 9])
    (fun _ => ([] : Str)) [] (by decide) (by decide)

/-- C8: for a valid configuration the token-window splitter emits, in order,
the decodings of the windows `[start, min(start + chunkSize, N))` for
`start = 0, d, 2d, ...` with `d = chunkSize - chunkOverlap`, continuing
exactly while `start < N` (`numWindows` starts in total, which is `0` when
the text encodes to zero tokens). -/
theorem c8_token_windows (cfg : SplitterConfig) (encode : Str → List Int)
    (decode : List Int → Str) (text : Str) (hv : cfg.chunkOverlap < cfg.chunkSize) :
    tokenSplitText cfg encode decode ((encode text).length + 1) text =
      some ((List.range (numWindows cfg (encode text).length)).map (fun (k : Nat) =>
        decode (jsSliceInt (encode text)
          ((k : Int) * (cfg.chunkSize - cfg.chunkOverlap))
          (min ((k : Int) * (cfg.chunkSize - cfg.chunkOverlap) + cfg.chunkSize)
            ((encode text).length : Int))))) := by
  unfold tokenSplitText
  exact token_main cfg decode (encode text) hv

theorem c8_witness :
    tokenSplitText ⟨5, 2⟩ (fun _ => [0, 1, 2, 3, 4, 5, 6, 7, 8, 9])
        (fun l => l.map (fun _ => 'x')) 11 [] =
      some ((List.range (numWindows ⟨5, 2⟩ 10)).map (fun (k : Nat) =>
        (jsSliceInt [0, 1, 2, 3, 4, 5, 6, 7, 8, 9] ((k : Int) * ((5 : Int) - 2))
            (min ((k : Int) * ((5 : Int) - 2) + 5) (10 : Int))).map (fun _ => 'x'))) := by
  have h := c8_token_windows ⟨5, 2⟩ (fun _ => [0, 1, 2, 3, 4, 5, 6, 7, 8, 9])
    (fun l => l.map (fun _ => 'x')) [] (by decide)
  exact h

/-! ### Properties of the split scanner -/

/-- Splitting a concatenation ending in a singleton: if the last element
lands in the right part, the right part ends with it. -/
theorem eq_append_singleton_split {w u v : Str} {c : Char} (h : w ++ [c] = u ++ v)
    (hv : v ≠ []) : ∃ v2, v = v2 ++ [c] ∧ w = u ++ v2 := by
  rcases List.eq_nil_or_concat v with rfl | ⟨v2, a, rfl⟩
  · exact absurd rfl hv
  · have hconcat : v2.concat a = v2 ++ [a] := List.concat_eq_append v2 a
    have h2 : w ++ [c] = (u ++ v2) ++ [a] := by rw [h, hconcat, List.append_assoc]
    obtain ⟨h3, h4⟩ := List.append_inj' h2 rfl
    have hca : c = a := by simpa using h4
    subst hca
    exact ⟨v2, by rw [hconcat], h3⟩

/-- Every piece produced by the scanner occurs contiguously inside
`acc.reverse ++ t` (the part of the text not yet consumed by earlier
pieces). -/
theorem splitOnAux_within (c0 : Char) (sep0 : Str) :
    ∀ fuel : Nat, ∀ t acc p : Str, t.length ≤ fuel → p ∈ splitOnAux c0 sep0 fuel t acc →
      ∃ u v, acc.reverse ++ t = u ++ p ++ v := by
  intro fuel
  induction fuel with
  | zero =>
    intro t acc p hlen hp
    have ht : t = [] := List.length_eq_zero.mp (by omega)
    subst ht
    simp only [splitOnAux, List.mem_singleton] at hp
    subst hp
    exact ⟨[], [], by simp⟩
  | succ fuel ih =>
    intro t acc p hlen hp
    cases t with
    | nil =>
      simp only [splitOnAux, List.mem_singleton] at hp
      subst hp
      exact ⟨[], [], by simp⟩
    | cons c rest =>
      simp only [splitOnAux] at hp
      by_cases hm : isPre (c0 :: sep0) (c :: rest) = true
      · rw [if_pos hm] at hp
        rcases List.mem_cons.mp hp with rfl | hp2
        · exact ⟨[], c :: rest, by simp⟩
        · have hdlen : (rest.drop sep0.length).length ≤ fuel := by
            have hd := List.length_drop sep0.length rest
            simp only [List.length_cons] at hlen
            omega
          obtain ⟨u, v, huv⟩ := ih (rest.drop sep0.length) [] p hdlen hp2
          simp only [List.reverse_nil, List.nil_append] at huv
          obtain ⟨r, hr⟩ := (isPre_iff (c0 :: sep0) (c :: rest)).mp hm
          have hrdrop : rest.drop sep0.length = r := by
            have hgoal := congrArg (fun l => List.drop (sep0.length + 1) l) hr
            simp only [List.drop_succ_cons] at hgoal
            rw [hgoal]
            have hl : (c0 :: sep0).length = sep0.length + 1 := by simp
            rw [← hl, List.drop_left]
          refine ⟨acc.reverse ++ (c0 :: sep0) ++ u, v, ?_⟩
          rw [hr, ← hrdrop, huv]
          simp
      · rw [if_neg hm] at hp
        have hrlen : rest.length ≤ fuel := by
          simp only [List.length_cons] at hlen
          omega
        obtain ⟨u, v, huv⟩ := ih rest (c :: acc) p hrlen hp
        refine ⟨u, v, ?_⟩
        rw [← huv]
        simp

/-- If no nonempty suffix of `w` can start an occurrence of the separator
(extending into `t`), then `w` does not contain the separator at all. -/
theorem acc_free {c0 : Char} {sep0 : Str} {w t : Str}
    (hinv : ∀ v : Str, v ≠ [] → (∃ u, w = u ++ v) →
      isPre (c0 :: sep0) (v ++ t) = false) :
    jsIncludes w (c0 :: sep0) = false := by
  by_contra hcon
  rw [Bool.not_eq_false] at hcon
  obtain ⟨u, v, hw⟩ := (jsIncludes_iff _ _).mp hcon
  have hfalse := hinv ((c0 :: sep0) ++ v) (by simp) ⟨u, by rw [hw]; simp⟩
  have htrue : isPre (c0 :: sep0) (((c0 :: sep0) ++ v) ++ t) = true :=
    (isPre_iff _ _).mpr ⟨v ++ t, by simp⟩
  rw [htrue] at hfalse
  cases hfalse

/-- No piece produced by the scanner contains the separator: the scanner
cuts at every leftmost occurrence. -/
theorem splitOnAux_free (c0 : Char) (sep0 : Str) :
    ∀ fuel : Nat, ∀ t acc : Str, t.length ≤ fuel →
      (∀ v : Str, v ≠ [] → (∃ u, acc.reverse = u ++ v) →
        isPre (c0 :: sep0) (v ++ t) = false) →
      ∀ p ∈ splitOnAux c0 sep0 fuel t acc, jsIncludes p (c0 :: sep0) = false := by
  intro fuel
  induction fuel with
  | zero =>
    intro t acc hlen hinv p hp
    have ht : t = [] := List.length_eq_zero.mp (by omega)
    subst ht
    simp only [splitOnAux, List.mem_singleton] at hp
    subst hp
    exact acc_free hinv
  | succ fuel ih =>
    intro t acc hlen hinv p hp
    cases t with
    | nil =>
      simp only [splitOnAux, List.mem_singleton] at hp
      subst hp
      exact acc_free hinv
    | cons c rest =>
      simp only [splitOnAux] at hp
      by_cases hm : isPre (c0 :: sep0) (c :: rest) = true
      · rw [if_pos hm] at hp
        rcases List.mem_cons.mp hp with rfl | hp2
        · exact acc_free hinv
        · refine ih (rest.drop sep0.length) [] ?_ ?_ p hp2
          · have hd := List.length_drop sep0.length rest
            simp only [List.length_cons] at hlen
            omega
          · rintro v hv ⟨u, hu⟩
            simp only [List.reverse_nil] at hu
            have hnil : v = [] := (List.append_eq_nil.mp hu.symm).2
            exact absurd hnil hv
      · rw [if_neg hm] at hp
        have hm' : isPre (c0 :: sep0) (c :: rest) = false := by
          revert hm
          cases isPre (c0 :: sep0) (c :: rest) <;> simp
        refine ih rest (c :: acc) (by simp only [List.length_cons] at hlen; omega) ?_ p hp
        rintro v hv ⟨u, hu⟩
        rw [List.reverse_cons] at hu
        obtain ⟨v2, rfl, hw⟩ := eq_append_singleton_split hu hv
        by_cases hv2 : v2 = []
        · subst hv2
          simpa using hm'
        · have hprev := hinv v2 hv2 ⟨u, hw⟩
          rw [← hprev]
          congr 1
          simp

/-- Every unit of `jsSplit` occurs contiguously inside the text. -/
theorem jsSplit_within (text sep p : Str) (hp : p ∈ jsSplit text sep) :
    ∃ u v, text = u ++ p ++ v := by
  cases sep with
  | nil =>
    simp only [jsSplit] at hp
    obtain ⟨c, hc, rfl⟩ := List.mem_map.mp hp
    obtain ⟨u, v, huv⟩ := List.append_of_mem hc
    exact ⟨u, v, by rw [huv]; simp⟩
  | cons c0 sep0 =>
    obtain ⟨u, v, huv⟩ := splitOnAux_within c0 sep0 text.length text [] p le_rfl hp
    exact ⟨u, v, by simpa using huv⟩

/-- No unit of a split on a non-empty separator contains that separator. -/
theorem jsSplit_free (text : Str) (c0 : Char) (sep0 : Str) (p : Str)
    (hp : p ∈ jsSplit text (c0 :: sep0)) : jsIncludes p (c0 :: sep0) = false := by
  refine splitOnAux_free c0 sep0 text.length text [] le_rfl ?_ p hp
  rintro v hv ⟨u, hu⟩
  simp only [List.reverse_nil] at hu
  have hnil : v = [] := (List.append_eq_nil.mp hu.symm).2
  exact absurd hnil hv

/-- Units of a character-level split are single characters. -/
theorem jsSplit_empty_sep (text p : Str) (hp : p ∈ jsSplit text []) : p.length = 1 := by
  simp only [jsSplit] at hp
  obtain ⟨c, -, rfl⟩ := List.mem_map.mp hp
  rfl

/-! ### Separator selection -/

/-- The Boolean test of the selection loop decides `SepMatch`. -/
theorem sepMatch_bool (text s : Str) :
    (s.isEmpty || jsIncludes text s) = true ↔ SepMatch text s := by
  simp [SepMatch, Bool.or_eq_true, List.isEmpty_iff]

theorem getD_mem_of_lt : ∀ (l : List Str) (i : Nat), i < l.length → l.getD i [] ∈ l := by
  intro l
  induction l with
  | nil => intro i hi; simp at hi
  | cons s rest ih =>
    intro i hi
    cases i with
    | zero => simp
    | succ i =>
      simp only [List.getD_cons_succ]
      exact List.mem_cons_of_mem s (ih i (by simpa using hi))

theorem getLast?_mem_own : ∀ (l : List Str) (a : Str), l.getLast? = some a → a ∈ l := by
  intro l
  induction l with
  | nil => intro a h; simp at h
  | cons s rest ih =>
    intro a h
    cases rest with
    | nil =>
      simp only [List.getLast?_singleton, Option.some.injEq] at h
      simp [h]
    | cons b t =>
      rw [List.getLast?_cons_cons] at h
      exact List.mem_cons_of_mem s (ih a h)

/-- The selection loop finds the first matching entry, when one exists. -/
theorem findSeparator_spec (text : Str) :
    ∀ seps : List Str, (∃ s ∈ seps, SepMatch text s) →
      ∃ i, i < seps.length ∧ findSeparator text seps = some (seps.getD i []) ∧
        SepMatch text (seps.getD i []) ∧
        ∀ j, j < i → ¬ SepMatch text (seps.getD j []) := by
  intro seps
  induction seps with
  | nil =>
    rintro ⟨s, hs, -⟩
    exact absurd hs (List.not_mem_nil s)
  | cons s rest ih =>
    intro hex
    by_cases hs : SepMatch text s
    · refine ⟨0, by simp, ?_, by simpa using hs, fun j hj => absurd hj (by omega)⟩
      simp only [findSeparator]
      rw [if_pos ((sepMatch_bool text s).mpr hs)]
      rfl
    · have hex2 : ∃ s2 ∈ rest, SepMatch text s2 := by
        rcases hex with ⟨s2, hs2, hm⟩
        rcases List.mem_cons.mp hs2 with rfl | h'
        · exact absurd hm hs
        · exact ⟨s2, h', hm⟩
      obtain ⟨i, hi, hfind, hmatch, hbefore⟩ := ih hex2
      refine ⟨i + 1, by simpa using hi, ?_, by simpa using hmatch, ?_⟩
      · simp only [findSeparator]
        rw [if_neg (fun hb => hs ((sepMatch_bool text s).mp hb))]
        simpa using hfind
      · intro j hj
        cases j with
        | zero => simpa using hs
        | succ j =>
          have hb := hbefore j (by omega)
          simpa using hb

/-- The selection loop finds nothing iff no entry matches. -/
theorem findSeparator_none (text : Str) :
    ∀ seps : List Str, (∀ s ∈ seps, ¬ SepMatch text s) →
      findSeparator text seps = none := by
  intro seps
  induction seps with
  | nil => intro _; rfl
  | cons s rest ih =>
    intro hall
    simp only [findSeparator]
    rw [if_neg (fun hb => hall s (by simp) ((sepMatch_bool text s).mp hb))]
    exact ih (fun s2 hs2 => hall s2 (List.mem_cons_of_mem s hs2))

/-- C7: for a non-empty separator list, the recursive splitter selects the
first entry that is the empty string or literally occurs in the text; when
no entry matches at all, it keeps the last entry of the list. -/
theorem c7_separator_selection (seps : List Str) (text : Str) (_hne : seps ≠ []) :
    (∀ i, i < seps.length → SepMatch text (seps.getD i []) →
      (∀ j, j < i → ¬ SepMatch text (seps.getD j [])) →
      selectSeparator seps text = seps.getD i []) ∧
    ((∀ s ∈ seps, ¬ SepMatch text s) → selectSeparator seps text = seps.getLastD []) := by
  constructor
  · intro i hi hmatch hbefore
    obtain ⟨i2, hi2, hfind, hmatch2, hbefore2⟩ :=
      findSeparator_spec text seps ⟨seps.getD i [], getD_mem_of_lt seps i hi, hmatch⟩
    have hii : i2 = i := by
      by_contra hcon
      rcases Nat.lt_or_ge i2 i with hlt | hge
      · exact hbefore i2 hlt hmatch2
      · exact hbefore2 i (by omega) hmatch
    subst hii
    unfold selectSeparator
    rw [hfind]
  · intro hall
    unfold selectSeparator
    rw [findSeparator_none text seps hall]

theorem c7_witness :
    selectSeparator ["\n\n".data, " ".data] "a b".data = " ".data := by
  have h := (c7_separator_selection ["\n\n".data, " ".data] "a b".data (by decide)).1 1
    (by decide) (by decide) (by intro j hj; interval_cases j; decide)
  simpa using h

/-! ### The recursive splitter -/

theorem recursiveSplitText_succ (cfg : SplitterConfig) (seps : List Str) (fuel : Nat)
    (text : Str) :
    recursiveSplitText cfg seps (fuel + 1) text =
      match recSplitLoop cfg (selectSeparator seps text) (recursiveSplitText cfg seps fuel)
          [] [] (jsSplit text (selectSeparator seps text)) with
      | none => none
      | some (finalChunks, goodSplits) =>
        if goodSplits.length > 0 then
          match mergeSplits cfg goodSplits (selectSeparator seps text) with
          | none => none
          | some mergedText => some (finalChunks ++ mergedText)
        else some finalChunks := rfl

/-- With `chunkSize = 1`, the recursive splitter never finishes on the
one-character text "a": the character-level unit has length `1`, which is
not strictly smaller than `chunkSize`, so the code recurses on the same
one-character text forever.  In the fuel model, no amount of fuel
suffices. -/
theorem rec_one_diverges : ∀ fuel : Nat, recursiveSplitText ⟨1, 0⟩ [[]] fuel ['a'] = none := by
  intro fuel
  induction fuel with
  | zero => rfl
  | succ fuel ih =>
    rw [recursiveSplitText_succ]
    have hsel : selectSeparator [[]] ['a'] = [] := rfl
    rw [hsel]
    have hsplit : jsSplit ['a'] [] = [['a']] := rfl
    rw [hsplit]
    simp only [recSplitLoop]
    rw [if_neg (by decide)]
    rw [if_neg (by decide)]
    rw [ih]

/-- C3, counterexample: with the valid configuration `chunkSize = 1`,
`chunkOverlap = 0` and the separator list `[""]` (whose last entry is the
empty string), splitting the text "a" does not terminate: it returns no
result within the claimed recursion bound (separator-list length plus one),
nor within any larger bound (see `rec_one_diverges`). -/
theorem c3_counterexample :
    recursiveSplitText ⟨1, 0⟩ [[]] (List.length [([] : Str)] + 1) ['a'] = none ∧
    recursiveSplitText ⟨1, 0⟩ [[]] 100 ['a'] = none :=
  ⟨rec_one_diverges _, rec_one_diverges _⟩

/-- The unit-processing loop preserves goodness: if every already-collected
chunk is a `GoodChunk`, every accumulated unit is small, and every incoming
unit is either small or recursively splittable into `GoodChunk`s, then the
loop returns with those invariants intact. -/
theorem recSplitLoop_spec (cfg : SplitterConfig) (seps : List Str) (sep : Str)
    (h0 : 0 ≤ cfg.chunkOverlap) (hS : 0 ≤ cfg.chunkSize) (hsep : sep ∈ seps)
    (recurse : Str → Option (List Str)) :
    ∀ splits fc gs : List Str,
      (∀ c ∈ fc, GoodChunk cfg seps c) →
      (∀ u ∈ gs, (u.length : Int) < cfg.chunkSize) →
      (∀ s ∈ splits, ((s.length : Int) < cfg.chunkSize) ∨
        ∃ r, recurse s = some r ∧ ∀ c ∈ r, GoodChunk cfg seps c) →
      ∃ fc2 gs2, recSplitLoop cfg sep recurse fc gs splits = some (fc2, gs2) ∧
        (∀ c ∈ fc2, GoodChunk cfg seps c) ∧
        (∀ u ∈ gs2, (u.length : Int) < cfg.chunkSize) := by
  intro splits
  induction splits with
  | nil =>
    intro fc gs hfc hgs _
    exact ⟨fc, gs, rfl, hfc, hgs⟩
  | cons s rest ih =>
    intro fc gs hfc hgs hsplits
    simp only [recSplitLoop]
    by_cases hgood : (s.length : Int) < cfg.chunkSize
    · rw [if_pos hgood]
      refine ih fc (gs ++ [s]) hfc ?_ (fun u hu => hsplits u (by simp [hu]))
      intro u hu
      rcases List.mem_append.mp hu with h' | h'
      · exact hgs u h'
      · have hus : u = s := by simpa using h'
        exact hus ▸ hgood
    · rw [if_neg hgood]
      obtain ⟨r, hr, hrchunks⟩ := (hsplits s (by simp)).resolve_left hgood
      have hmerge : ∃ merged, (if gs.length > 0 then mergeSplits cfg gs sep
          else some []) = some merged ∧ ∀ c ∈ merged, GoodChunk cfg seps c := by
        by_cases hgs0 : gs.length > 0
        · rw [if_pos hgs0]
          obtain ⟨docs, hdocs, hND⟩ := mergeSplits_bounded cfg sep gs h0 hS hgs
          exact ⟨docs, hdocs, fun c hc => ⟨sep, hsep, hND c hc⟩⟩
        · rw [if_neg hgs0]
          exact ⟨[], rfl, by simp⟩
      obtain ⟨merged, hmeq, hmchunks⟩ := hmerge
      have hfc2 : ∀ c ∈ fc ++ merged ++ r, GoodChunk cfg seps c := by
        intro c hc
        rcases List.mem_append.mp hc with h' | h'
        · rcases List.mem_append.mp h' with h'' | h''
          · exact hfc c h''
          · exact hmchunks c h''
        · exact hrchunks c h'
      obtain ⟨fc2, gs2, heq, h1, h2⟩ := ih (fc ++ merged ++ r) [] hfc2 (by simp)
        (fun u hu => hsplits u (by simp [hu]))
      refine ⟨fc2, gs2, ?_, h1, h2⟩
      rw [hmeq, hr]
      exact heq

theorem mem_getD_index (a : Str) : ∀ l : List Str, a ∈ l →
    ∃ i, i < l.length ∧ l.getD i [] = a := by
  intro l
  induction l with
  | nil =>
    intro ha
    exact absurd ha (List.not_mem_nil a)
  | cons s rest ih =>
    intro ha
    rcases List.mem_cons.mp ha with rfl | h'
    · exact ⟨0, by simp, rfl⟩
    · obtain ⟨i, hi, heq⟩ := ih h'
      exact ⟨i + 1, by simpa using hi, by simpa using heq⟩

/-- Master induction for the recursive splitter with `chunkSize ≥ 2`,
non-negative overlap, and a separator list whose last entry is the empty
string.  If the first `i` separators are known not to match the text, then
fuel `seps.length + 1 - i` suffices (the index of the selected separator
strictly increases along the recursion, because a unit produced by
splitting on a separator neither contains that separator nor any earlier
non-matching one), and every produced chunk is a `GoodChunk`. -/
theorem recMaster (cfg : SplitterConfig) (seps : List Str)
    (h2 : 2 ≤ cfg.chunkSize) (h0 : 0 ≤ cfg.chunkOverlap)
    (hlast : seps.getLast? = some []) :
    ∀ fuel i : Nat, ∀ text : Str, seps.length + 1 ≤ i + fuel →
      (∀ j, j < i → ¬ SepMatch text (seps.getD j [])) →
      ∃ chunks, recursiveSplitText cfg seps fuel text = some chunks ∧
        ∀ c ∈ chunks, GoodChunk cfg seps c := by
  have hS : 0 ≤ cfg.chunkSize := by omega
  have hnil_mem : ([] : Str) ∈ seps := getLast?_mem_own seps [] hlast
  obtain ⟨j0, hj0, hj0eq⟩ := mem_getD_index [] seps hnil_mem
  intro fuel
  induction fuel with
  | zero =>
    intro i text hcount hbefore
    exact absurd (Or.inl hj0eq) (hbefore j0 (by omega))
  | succ fuel ih =>
    intro i text hcount hbefore
    obtain ⟨i2, hi2, hfind, hmatch, hbefore2⟩ :=
      findSeparator_spec text seps ⟨[], hnil_mem, Or.inl rfl⟩
    have hsel : selectSeparator seps text = seps.getD i2 [] := by
      unfold selectSeparator
      rw [hfind]
    have hii : i ≤ i2 := by
      by_contra hcon
      push_neg at hcon
      exact hbefore i2 hcon hmatch
    have hs0_mem : seps.getD i2 [] ∈ seps := getD_mem_of_lt seps i2 hi2
    rw [recursiveSplitText_succ, hsel]
    rcases hstr : seps.getD i2 [] with _ | ⟨c0, sep0⟩
    · have hpieces : ∀ s ∈ jsSplit text [], ((s.length : Int) < cfg.chunkSize) ∨
          ∃ r, recursiveSplitText cfg seps fuel s = some r ∧
            ∀ c ∈ r, GoodChunk cfg seps c := by
        intro s hs
        left
        rw [jsSplit_empty_sep text s hs]
        push_cast
        omega
      obtain ⟨fc2, gs2, heq, h1fc, h2gs⟩ := recSplitLoop_spec cfg seps [] h0 hS
        (hstr ▸ hs0_mem) (recursiveSplitText cfg seps fuel) (jsSplit text []) [] []
        (by simp) (by simp) hpieces
      simp only [heq]
      by_cases hgs : gs2.length > 0
      · rw [if_pos hgs]
        obtain ⟨docs, hdocs, hmc⟩ := mergeSplits_bounded cfg [] gs2 h0 hS h2gs
        rw [hdocs]
        refine ⟨fc2 ++ docs, rfl, ?_⟩
        intro c hc
        rcases List.mem_append.mp hc with h' | h'
        · exact h1fc c h'
        · exact ⟨[], hstr ▸ hs0_mem, hmc c h'⟩
      · rw [if_neg hgs]
        exact ⟨fc2, rfl, h1fc⟩
    · have hpieces : ∀ s ∈ jsSplit text (c0 :: sep0), ((s.length : Int) < cfg.chunkSize) ∨
          ∃ r, recursiveSplitText cfg seps fuel s = some r ∧
            ∀ c ∈ r, GoodChunk cfg seps c := by
        intro s hs
        right
        refine ih (i2 + 1) s (by omega) ?_
        intro j hj hmatchJ
        rcases Nat.lt_or_ge j i2 with hlt | hge
        · rcases hmatchJ with hm | hm
          · exact hbefore2 j hlt (Or.inl hm)
          · exact hbefore2 j hlt
              (Or.inr (jsIncludes_of_within (jsSplit_within text (c0 :: sep0) s hs) hm))
        · have hji : j = i2 := by omega
          subst hji
          rw [hstr] at hmatchJ
          rcases hmatchJ with hm | hm
          · exact absurd hm (by simp)
          · rw [jsSplit_free text c0 sep0 s hs] at hm
            cases hm
      obtain ⟨fc2, gs2, heq, h1fc, h2gs⟩ := recSplitLoop_spec cfg seps (c0 :: sep0) h0 hS
        (hstr ▸ hs0_mem) (recursiveSplitText cfg seps fuel) (jsSplit text (c0 :: sep0)) [] []
        (by simp) (by simp) hpieces
      simp only [heq]
      by_cases hgs : gs2.length > 0
      · rw [if_pos hgs]
        obtain ⟨docs, hdocs, hmc⟩ := mergeSplits_bounded cfg (c0 :: sep0) gs2 h0 hS h2gs
        rw [hdocs]
        refine ⟨fc2 ++ docs, rfl, ?_⟩
        intro c hc
        rcases List.mem_append.mp hc with h' | h'
        · exact h1fc c h'
        · exact ⟨c0 :: sep0, hstr ▸ hs0_mem, hmc c h'⟩
      · rw [if_neg hgs]
        exact ⟨fc2, rfl, h1fc⟩

/-- C3, amended: for `chunkSize ≥ 2` (not `≥ 1`: character-level units have
length 1 and are "good" only when `1 < chunkSize`), non-negative overlap and
a separator list ending in the empty string, the recursive splitter
terminates within recursion depth `seps.length + 1` (the separator list
length plus the character-level pass). -/
theorem c3_amended_termination (cfg : SplitterConfig) (seps : List Str) (text : Str)
    (h2 : 2 ≤ cfg.chunkSize) (h0 : 0 ≤ cfg.chunkOverlap)
    (hlast : seps.getLast? = some []) :
    (recursiveSplitText cfg seps (seps.length + 1) text).isSome = true := by
  obtain ⟨chunks, heq, -⟩ := recMaster cfg seps h2 h0 hlast (seps.length + 1) 0 text
    (by omega) (fun j hj => absurd hj (by omega))
  rw [heq]
  rfl

theorem c3_amended_witness :
    (recursiveSplitText ⟨5, 0⟩ ["\n\n".data, "\n".data, " ".data, "".data]
      (List.length ["\n\n".data, "\n".data, " ".data, "".data] + 1)
      "a b c d".data).isSome = true :=
  c3_amended_termination ⟨5, 0⟩ ["\n\n".data, "\n".data, " ".data, "".data] "a b c d".data
    (by decide) (by decide) (by decide)

/-- Unpack a `GoodChunk` into the amended C2 shape: the chunk is a trimmed
separator-join of units whose summed length (separators excluded) is at most
`chunkSize`, so its full length exceeds `chunkSize` at most by the total
length of the inserted separators. -/
theorem goodChunk_length (cfg : SplitterConfig) (seps : List Str) (c : Str)
    (h : GoodChunk cfg seps c) :
    ∃ sep ws, sep ∈ seps ∧ c = trimL (listIntercalate sep ws) ∧
      sumLen ws ≤ cfg.chunkSize ∧ (∀ u ∈ ws, (u.length : Int) < cfg.chunkSize) ∧
      (c.length : Int) ≤ cfg.chunkSize + (((ws.length - 1) * sep.length : Nat) : Int) := by
  obtain ⟨sep, hsep, ws, hc, hsum, hunits, -⟩ := h
  refine ⟨sep, ws, hsep, hc, hsum, hunits, ?_⟩
  have h1 : c.length ≤ (listIntercalate sep ws).length := by
    rw [hc]
    exact trimL_length_le _
  rw [listIntercalate_length] at h1
  have h3 : (c.length : Int) ≤ ((ws.map List.length).sum : Int) +
      (((ws.length - 1) * sep.length : Nat) : Int) := by exact_mod_cast h1
  have h4 : ((ws.map List.length).sum : Int) = sumLen ws := (sumLen_eq_natCast ws).symm
  rw [h4] at h3
  linarith

/-- C2, counterexample: with the valid configuration `chunkSize = 5`,
`chunkOverlap = 0` and the default separator list (last entry empty), the
text "a b c d" is split into the single chunk "a b c d" of length 7 > 5:
the merge engine admits the four one-character units because its running
total ignores the three inserted one-character separators.  The chunk does
not originate from a single atomic character-level unit (its length is not
1). -/
theorem c2_counterexample :
    recursiveSplitText ⟨5, 0⟩ ["\n\n".data, "\n".data, " ".data, "".data] 5
        "a b c d".data = some ["a b c d".data] ∧
    ("a b c d".data.length : Int) = 7 ∧
    ¬ ((7 : Int) ≤ (⟨5, 0⟩ : SplitterConfig).chunkSize) ∧
    "a b c d".data.length ≠ 1 := by decide

/-- C2, amended: for `chunkSize ≥ 2`, non-negative overlap and a separator
list ending in the empty string, every chunk returned by the recursive
splitter is the trimmed separator-join of units each shorter than
`chunkSize` whose summed length (excluding separators) is at most
`chunkSize`; hence a chunk's length can exceed `chunkSize` only by the
lengths of the separators inserted between its units (with the empty
separator every chunk has length at most `chunkSize`). -/
theorem c2_amended_chunk_bound (cfg : SplitterConfig) (seps : List Str) (text : Str)
    (h2 : 2 ≤ cfg.chunkSize) (h0 : 0 ≤ cfg.chunkOverlap)
    (hlast : seps.getLast? = some []) :
    ∃ chunks, recursiveSplitText cfg seps (seps.length + 1) text = some chunks ∧
      ∀ c ∈ chunks, ∃ sep ws, sep ∈ seps ∧ c = trimL (listIntercalate sep ws) ∧
        sumLen ws ≤ cfg.chunkSize ∧ (∀ u ∈ ws, (u.length : Int) < cfg.chunkSize) ∧
        (c.length : Int) ≤ cfg.chunkSize + (((ws.length - 1) * sep.length : Nat) : Int) := by
  obtain ⟨chunks, heq, hg⟩ := recMaster cfg seps h2 h0 hlast (seps.length + 1) 0 text
    (by omega) (fun j hj => absurd hj (by omega))
  exact ⟨chunks, heq, fun c hc => goodChunk_length cfg seps c (hg c hc)⟩

theorem c2_amended_witness :
    ∃ chunks, recursiveSplitText ⟨5, 0⟩ ["\n\n".data, "\n".data, " ".data, "".data]
        (List.length ["\n\n".data, "\n".data, " ".data, "".data] + 1) "a b c d".data =
        some chunks ∧
      ∀ c ∈ chunks, ∃ sep ws, sep ∈ ["\n\n".data, "\n".data, " ".data, "".data] ∧
        c = trimL (listIntercalate sep ws) ∧
        sumLen ws ≤ (⟨5, 0⟩ : SplitterConfig).chunkSize ∧
        (∀ u ∈ ws, (u.length : Int) < (⟨5, 0⟩ : SplitterConfig).chunkSize) ∧
        (c.length : Int) ≤ (⟨5, 0⟩ : SplitterConfig).chunkSize +
          (((ws.length - 1) * sep.length : Nat) : Int) :=
  c2_amended_chunk_bound ⟨5, 0⟩ ["\n\n".data, "\n".data, " ".data, "".data] "a b c d".data
    (by decide) (by decide) (by decide)
